import Mathlib

/-!
Verification of the glue dependency-injection runtime (codeallergy/glue).

This file gives a shallow embedding of the resolution-and-construction engine
of the Go sources (`bean.go`, `context.go`, `injection.go`, `properties.go`)
and proves or refutes the frozen specification claims about it.

The embedding abstracts Go reflection: a bean is identified by a numeric id
and carries the attributes the engine actually reads (logical name, explicit
order, factory flag).  Field injection operates on already-resolved candidate
lists, exactly as `injection.inject` does after `findDirectRecursive` or
`searchCandidatesRecursive` produced the leveled candidates.
-/

namespace Glue

/-- Bean lifecycle states, from `BeanLifecycle` in the Go source. -/
inductive BeanLifecycle
  | BeanAllocated
  | BeanCreated
  | BeanConstructing
  | BeanInitialized
  | BeanDestroying
  | BeanDestroyed
deriving DecidableEq, Repr

/-- The attributes of a registered bean handle that the injection engine
reads: identity, logical name, explicit order (from `OrderedBean`), and
whether the handle is a factory placeholder (`beenFactory != nil`). -/
structure RBean where
  id : Nat
  name : String
  ordered : Bool
  order : Int
  isFactory : Bool
deriving DecidableEq, Repr

/-- One generation of lookup candidates paired with its context level,
from `beanlist` in `bean.go` (level 1 is the current context). -/
structure BeanList where
  level : Int
  list : List RBean
deriving DecidableEq, Repr

/-- Selection of candidates for a lookup level, translated from
`levelBeans` in `injection.go`.  Level -1 unions every generation, level 0
takes the first available generation, level 1 takes the first generation
only when it belongs to the current context, and any other level unions the
generations whose level does not exceed it (the loop with `break`). -/
def levelBeans (deep : List BeanList) (level : Int) : List RBean :=
  if level = -1 then
    (deep.map BeanList.list).flatten
  else if level = 0 then
    match deep with
    | [] => []
    | entry :: _ => entry.list
  else if level = 1 then
    match deep with
    | [] => []
    | entry :: _ => if entry.level = 1 then entry.list else []
  else
    ((deep.takeWhile (fun entry => entry.level ≤ level)).map BeanList.list).flatten

/-- Comparison used to sort beans that declare an explicit order, matching
the `sort.Slice` comparator `ordered[i].order < ordered[j].order` (a total
order on the `order` values; ties are broken arbitrarily by `sort.Slice`,
here deterministically by insertion sort). -/
def beanLE (a b : RBean) : Prop := a.order ≤ b.order

instance : DecidableRel beanLE := fun a b => inferInstanceAs (Decidable (a.order ≤ b.order))

instance : IsTotal RBean beanLE := ⟨fun a b => Int.le_total a.order b.order⟩

instance : IsTrans RBean beanLE := ⟨fun _ _ _ hab hbc => le_trans hab hbc⟩

/-- Ordering of a candidate set, translated from `orderBeans` in
`injection.go`: beans declaring an explicit order are sorted ascending and
placed first, the remaining beans keep their original order after them. -/
def orderBeans (candidates : List RBean) : List RBean :=
  let ordered := candidates.filter (fun c => c.ordered)
  if 0 < ordered.length then
    let sorted := List.insertionSort beanLE ordered
    if ordered.length ≠ candidates.length then
      sorted ++ candidates.filter (fun c => !c.ordered)
    else
      sorted
  else
    candidates

/-- Static description of one injectable field, from `injectionDef` in
`injection.go`.  `canSet` models `field.CanSet()` (the field is exported). -/
structure InjectDef where
  fieldName : String
  slice : Bool
  table : Bool
  lazy : Bool
  optional : Bool
  qualifier : String
  level : Int
  canSet : Bool
deriving DecidableEq, Repr

/-- Qualifier filtering, translated from `injectionDef.filterBeans`. -/
def filterBeans (d : InjectDef) (list : List RBean) : List RBean :=
  if d.qualifier ≠ "" then list.filter (fun b => b.name = d.qualifier) else list

/-- Errors raised by the engine; each constructor corresponds to one
`errors.Errorf` site in the Go source. -/
inductive GlueErr
  | notPublic (fieldName : String)
  | noCandidates (fieldName : String) (qualifier : String)
  | multipleCandidates (fieldName : String)
  | duplicateMapKey (dupName : String) (fieldName : String)
  | lazyFactory (fieldName : String)
  | cycleDetected (path : List Nat)
  | postConstructFailed (beanId : Nat)
  | destroyFailed (beanId : Nat)
  | factoryReload (name : String)
  | outOfFuel
deriving DecidableEq, Repr

/-- The value written into an injected field. -/
inductive FieldValue
  | unset
  | single (id : Nat)
  | slice (ids : List Nat)
  | table (entries : List (String × Nat))
deriving DecidableEq, Repr

/-- Observable outcome of one successful field injection: the value
assigned to the field, the hard dependency edges appended to
`bean.dependencies`, and the factory dependencies registered. -/
structure InjectResult where
  value : FieldValue
  deps : List Nat
  factoryDeps : List Nat
deriving DecidableEq, Repr

instance {ε α : Type} [DecidableEq ε] [DecidableEq α] : DecidableEq (Except ε α) := fun a b =>
  match a, b with
  | .ok x, .ok y =>
    if h : x = y then isTrue (by rw [h])
    else isFalse (by intro hc; injection hc; contradiction)
  | .error x, .error y =>
    if h : x = y then isTrue (by rw [h])
    else isFalse (by intro hc; injection hc; contradiction)
  | .ok _, .error _ => isFalse (by intro hc; injection hc)
  | .error _, .ok _ => isFalse (by intro hc; injection hc)

/-- Map-field injection loop with its `visited` duplicate-name set,
translated from the `table` branch of `injection.inject`.  Factory
placeholders register deferred injections; materialized beans are stored
under their logical name, failing on a repeated name. -/
def injectTableGo (self : RBean) (d : InjectDef) :
    List RBean → List String → List (String × Nat) → List Nat → List Nat →
    Except GlueErr InjectResult
  | [], _, entries, deps, fdeps =>
    .ok { value := .table entries, deps := deps, factoryDeps := fdeps }
  | impl :: rest, visited, entries, deps, fdeps =>
    if impl.isFactory then
      injectTableGo self d rest visited entries deps (fdeps ++ [impl.id])
    else if impl.name ∈ visited then
      .error (.duplicateMapKey impl.name d.fieldName)
    else
      injectTableGo self d rest (impl.name :: visited)
        (entries ++ [(impl.name, impl.id)])
        (deps ++ if !d.lazy && impl.id != self.id then [impl.id] else [])
        fdeps

/-- Slice-field injection, translated from the `slice` branch of
`injection.inject`: materialized beans are appended to the field (and to
`bean.dependencies` when the edge is not lazy and not self-referential),
factory placeholders become deferred factory dependencies. -/
def injectSlice (self : RBean) (d : InjectDef) (list : List RBean) : InjectResult :=
  { value := .slice ((list.filter (fun b => !b.isFactory)).map RBean.id)
    deps := ((list.filter (fun b => !b.isFactory && !d.lazy && b.id != self.id)).map RBean.id)
    factoryDeps := (list.filter (fun b => b.isFactory)).map RBean.id }

/-- The candidate set one field injection finally works on: leveled,
ordered, then filtered by the qualifier, the composition the first lines
of `injection.inject` compute. -/
def finalCandidates (d : InjectDef) (deep : List BeanList) : List RBean :=
  filterBeans d (orderBeans (levelBeans deep d.level))

/-- Field injection at context-construction time, translated from
`injection.inject` in `injection.go`.  `self` is the bean receiving the
injection and `deep` is the leveled candidate set produced by the
resolution phase. -/
def inject (self : RBean) (d : InjectDef) (deep : List BeanList) : Except GlueErr InjectResult :=
  if !d.canSet then
    .error (.notPublic d.fieldName)
  else
    match finalCandidates d deep with
    | [] =>
      if !d.optional then .error (.noCandidates d.fieldName d.qualifier)
      else .ok { value := .unset, deps := [], factoryDeps := [] }
    | impl :: rest =>
      if d.slice then
        .ok (injectSlice self d (impl :: rest))
      else if d.table then
        injectTableGo self d (impl :: rest) [] [] [] []
      else if 0 < rest.length then
        .error (.multipleCandidates d.fieldName)
      else if impl.isFactory then
        if d.lazy then .error (.lazyFactory d.fieldName)
        else .ok { value := .unset, deps := [], factoryDeps := [impl.id] }
      else
        .ok { value := .single impl.id
              deps := if !d.lazy && impl.id != self.id then [impl.id] else []
              factoryDeps := [] }

/-! ### Construction scheduler

Translation of `constructBean`, `constructBeanList` and `postConstruct` from
`context.go` for contexts of ordinary (non-factory) beans.  Go recursion is
replaced by an explicit fuel parameter; exhausting fuel yields the
distinguished error `outOfFuel`, which the Go code cannot produce, so every
theorem about actual outcomes is stated on results other than `outOfFuel` or
on concrete runs with enough fuel. -/

/-- The dependency graph assembled by context scan and injection: the bean
ids to construct (in registration order), the hard dependency edges recorded
in `bean.dependencies`, whether the `PostConstruct` hook succeeds, and
whether the bean implements `DisposableBean`. -/
structure CtxGraph where
  beans : List Nat
  dependencies : Nat → List Nat
  postConstructOk : Nat → Bool
  disposable : Nat → Bool

/-- Mutable construction state: lifecycle per bean (newest entry first, a
missing entry meaning `BeanCreated`, the state `investigate` leaves a bean
in), the order in which beans completed construction (reached
`BeanInitialized`), and the disposables list appended by `addDisposable`. -/
structure ConstructState where
  life : List (Nat × BeanLifecycle)
  initOrder : List Nat
  disposables : List Nat
deriving DecidableEq, Repr

/-- Lifecycle of a bean in a construction state. -/
def ConstructState.lifecycle (st : ConstructState) (b : Nat) : BeanLifecycle :=
  match st.life.lookup b with
  | some l => l
  | none => .BeanCreated

/-- Record a lifecycle transition for one bean. -/
def ConstructState.setLife (st : ConstructState) (b : Nat) (l : BeanLifecycle) : ConstructState :=
  { st with life := (b, l) :: st.life }

/-- All beans start in `BeanCreated` with nothing constructed. -/
def initialState : ConstructState :=
  { life := [], initOrder := [], disposables := [] }

/-- The path reported by a cycle error: the construction stack from the
first occurrence of the offending bean, with the bean appended, matching
`getStackInfo(append(stack[i:], bean), "->")` in `constructBean`. -/
def cyclePath (stack : List Nat) (b : Nat) : List Nat :=
  (stack.dropWhile (fun x => x ≠ b)) ++ [b]

/-- Completion of one bean: `addDisposable` followed by the transition to
`BeanInitialized`. -/
def finishBean (g : CtxGraph) (st : ConstructState) (b : Nat) : ConstructState :=
  { life := (b, .BeanInitialized) :: st.life
    initOrder := st.initOrder ++ [b]
    disposables := if g.disposable b then st.disposables ++ [b] else st.disposables }

/-- Sequencing of a step function over a list of beans, the shape of
`constructBeanList`: stop at the first error. -/
def runList (f : ConstructState → Nat → Except GlueErr ConstructState) :
    ConstructState → List Nat → Except GlueErr ConstructState
  | st, [] => .ok st
  | st, b :: rest =>
    match f st b with
    | .error e => .error e
    | .ok st' => runList f st' rest

/-- Depth-first construction of one bean, translated from `constructBean`
in `context.go`: an already-initialized bean is skipped; a bean that is
mid-construction and already on the active construction stack is a fatal
cycle; otherwise the bean is marked `BeanConstructing`, its hard
dependencies are constructed with the bean pushed on the stack, its
`PostConstruct` hook runs, and on success the bean completes. -/
def constructBean (g : CtxGraph) :
    Nat → ConstructState → Nat → List Nat → Except GlueErr ConstructState
  | 0, _, _, _ => .error .outOfFuel
  | fuel + 1, st, b, stack =>
    if st.lifecycle b = .BeanInitialized then
      .ok st
    else if st.lifecycle b = .BeanConstructing ∧ b ∈ stack then
      .error (.cycleDetected (cyclePath stack b))
    else
      match runList (fun s d => constructBean g fuel s d (stack ++ [b]))
          (st.setLife b .BeanConstructing) (g.dependencies b) with
      | .error e => .error e
      | .ok st2 =>
        if g.postConstructOk b then .ok (finishBean g st2 b)
        else .error (.postConstructFailed b)

/-- Whole-context construction, the `postConstruct` pass of `createContext`:
every scanned bean is constructed with an empty stack. -/
def runConstruct (g : CtxGraph) (fuel : Nat) : Except GlueErr ConstructState :=
  runList (fun st b => constructBean g fuel st b []) initialState g.beans

/-! ### Wired contexts

End-to-end pipeline: each bean comes with its injectable fields and their
already-resolved candidate sets (the outcome of the direct-match and
interface-match phases of `createContext`); injection records the hard
dependency edges, then the construction pass runs. -/

/-- One injectable field of a wired bean together with the leveled
candidates the resolution phase found for it. -/
structure WiredField where
  fdef : InjectDef
  deep : List BeanList
deriving Repr

/-- A bean handed to context creation: its handle attributes, its fields,
the behavior of its lifecycle hooks. -/
structure WiredBean where
  rbean : RBean
  fields : List WiredField
  postOk : Bool
  disposable : Bool
deriving Repr

/-- Run all field injections of one bean, accumulating assigned field
values and recorded hard dependency edges. -/
def injectFields (self : RBean) :
    List WiredField → List (String × FieldValue) → List Nat →
    Except GlueErr (List (String × FieldValue) × List Nat)
  | [], vals, deps => .ok (vals, deps)
  | f :: rest, vals, deps =>
    match inject self f.fdef f.deep with
    | .error e => .error e
    | .ok r => injectFields self rest (vals ++ [(f.fdef.fieldName, r.value)]) (deps ++ r.deps)

/-- Injection phase over all beans: produces the per-bean field values and
the recorded dependency map. -/
def injectPhase :
    List WiredBean → List (Nat × List (String × FieldValue)) → List (Nat × List Nat) →
    Except GlueErr (List (Nat × List (String × FieldValue)) × List (Nat × List Nat))
  | [], vals, deps => .ok (vals, deps)
  | wb :: rest, vals, deps =>
    match injectFields wb.rbean wb.fields [] [] with
    | .error e => .error e
    | .ok (fv, bdeps) => injectPhase rest (vals ++ [(wb.rbean.id, fv)]) (deps ++ [(wb.rbean.id, bdeps)])

/-- The dependency graph determined by the injection phase. -/
def buildGraph (wbs : List WiredBean) (depsMap : List (Nat × List Nat)) : CtxGraph :=
  { beans := wbs.map (fun wb => wb.rbean.id)
    dependencies := fun b => (depsMap.lookup b).getD []
    postConstructOk := fun b =>
      ((wbs.find? (fun wb => wb.rbean.id = b)).map WiredBean.postOk).getD true
    disposable := fun b =>
      ((wbs.find? (fun wb => wb.rbean.id = b)).map WiredBean.disposable).getD false }

/-- Result of a successful context creation: the injected field values and
the final construction state. -/
structure CreatedCtx where
  fieldValues : List (Nat × List (String × FieldValue))
  final : ConstructState
deriving DecidableEq, Repr

/-- Context creation for wired beans, the `createContext` pipeline after
resolution: run every injection (any failure aborts), then construct every
bean; a construction failure aborts context creation. -/
def contextCreate (fuel : Nat) (wbs : List WiredBean) : Except GlueErr CreatedCtx :=
  match injectPhase wbs [] [] with
  | .error e => .error e
  | .ok (vals, depsMap) =>
    match runConstruct (buildGraph wbs depsMap) fuel with
    | .error e => .error e
    | .ok st => .ok { fieldValues := vals, final := st }

/-! ### Multi-level lookup

Translation of `findDirectRecursive` from `context.go`: the chain of
context generations is walked from the current context outward, counting
levels from 1, and every generation holding candidates contributes one
`BeanList` entry. -/

/-- Walk of the parent chain collecting candidate generations, starting at
the given level.  A generation is a candidate list; an empty list plays the
role of a type absent from that context's `core` map (`registerBean` only
ever appends, so a present key is never empty). -/
def findDirectFrom (lvl : Int) : List (List RBean) → List BeanList
  | [] => []
  | g :: rest =>
    if g.isEmpty then findDirectFrom (lvl + 1) rest
    else ⟨lvl, g⟩ :: findDirectFrom (lvl + 1) rest

/-- Candidate collection over the whole parent chain, level counting
starting at 1 as in `findDirectRecursive`. -/
def findDirectRecursive (gens : List (List RBean)) : List BeanList :=
  findDirectFrom 1 gens

/-- The nearest non-empty generation of a context chain. -/
def firstNonEmptyGen : List (List RBean) → List RBean
  | [] => []
  | g :: rest => if g.isEmpty then firstNonEmptyGen rest else g

/-! ### Close and teardown

Translation of `Close` and `destroyBean` from `context.go`.  The
`sync.Once` gate becomes a `closedOnce` flag; the error list the closure
collects is returned directly (the Go code wraps it with `multipleErr`,
returning `nil` exactly when the list is empty). -/

/-- A bean as seen by teardown: identity, current lifecycle, whether it
implements `DisposableBean`, and what its `Destroy` hook returns. -/
structure DBean where
  id : Nat
  lifecycle : BeanLifecycle
  isDisposable : Bool
  destroyErr : Option GlueErr
deriving DecidableEq, Repr

/-- Teardown of a single bean, translated from `destroyBean`: beans not in
`BeanInitialized` are skipped; the bean moves to `BeanDestroying`, its
`Destroy` hook runs if present, and only a successful hook moves it to
`BeanDestroyed`. -/
def destroyBean (b : DBean) : Option GlueErr × DBean :=
  if b.lifecycle ≠ .BeanInitialized then
    (none, b)
  else
    let b1 : DBean := { b with lifecycle := .BeanDestroying }
    if b1.isDisposable then
      match b1.destroyErr with
      | some e => (some e, b1)
      | none => (none, { b1 with lifecycle := .BeanDestroyed })
    else
      (none, b1)

/-- Sequential teardown of a list of beans (already in destruction order),
collecting every error and the id of every bean visited. -/
def destroyList : List DBean → List GlueErr × List DBean × List Nat
  | [] => ([], [], [])
  | b :: rest =>
    let r := destroyBean b
    let rec' := destroyList rest
    (r.1.toList ++ rec'.1, r.2 :: rec'.2.1, b.id :: rec'.2.2)

/-- A context as seen by `Close`: results already produced by the child
contexts' `Close` calls, this context's disposables in construction order,
the one-shot close gate, and an instrumentation log of every
`destroyBean` invocation. -/
structure CloseCtx where
  childErrs : List (Option GlueErr)
  disposables : List DBean
  closedOnce : Bool
  destroyLog : List Nat
deriving DecidableEq, Repr

/-- One call of `Close`, translated from `context.go`: when the once-gate
has fired the body is skipped and the empty error list is returned;
otherwise children are closed first, then this context's disposables are
destroyed in reverse construction order, all failures collected. -/
def closeContext (c : CloseCtx) : List GlueErr × CloseCtx :=
  if c.closedOnce then
    ([], c)
  else
    let childList := c.childErrs.filterMap id
    let r := destroyList c.disposables.reverse
    (childList ++ r.1,
      { c with
        closedOnce := true
        disposables := r.2.1.reverse
        destroyLog := c.destroyLog ++ r.2.2 })

/-! ### Reload

Translation of `bean.Reload` from `bean.go`. -/

/-- A bean as seen by `Reload`: whether a factory produced it, its hooks
and their outcomes, and its lifecycle. -/
structure ReloadBean where
  name : String
  isFactory : Bool
  isDisposable : Bool
  destroyErr : Option GlueErr
  isInitializing : Bool
  postConstructErr : Option GlueErr
  lifecycle : BeanLifecycle
deriving DecidableEq, Repr

/-- Observable outcome of one `Reload` call: returned error (if any), the
bean's final state, and which hooks actually ran. -/
structure ReloadOutcome where
  result : Option GlueErr
  bean : ReloadBean
  destroyCalled : Bool
  postConstructCalled : Bool
deriving DecidableEq, Repr

/-- Continuation of `Reload` after the destroy step: the bean moves to
`BeanConstructing`; a factory-produced bean is rejected there, otherwise
`PostConstruct` runs again and on success the bean returns to
`BeanInitialized`. -/
def reloadAfterDestroy (b : ReloadBean) (dc : Bool) : ReloadOutcome :=
  let b1 : ReloadBean := { b with lifecycle := .BeanConstructing }
  if b1.isFactory then
    { result := some (.factoryReload b1.name), bean := b1
      destroyCalled := dc, postConstructCalled := false }
  else if b1.isInitializing then
    match b1.postConstructErr with
    | some e =>
      { result := some e, bean := b1, destroyCalled := dc, postConstructCalled := true }
    | none =>
      { result := none, bean := { b1 with lifecycle := .BeanInitialized }
        destroyCalled := dc, postConstructCalled := true }
  else
    { result := none, bean := { b1 with lifecycle := .BeanInitialized }
      destroyCalled := dc, postConstructCalled := false }

/-- One `Reload` call, translated from `bean.go`: the bean moves to
`BeanDestroying` and its `Destroy` hook runs if present (a destroy failure
is returned immediately); then construction is retried in place. -/
def reloadBean (b : ReloadBean) : ReloadOutcome :=
  let b1 : ReloadBean := { b with lifecycle := .BeanDestroying }
  if b1.isDisposable then
    match b1.destroyErr with
    | some e =>
      { result := some e, bean := b1, destroyCalled := true, postConstructCalled := false }
    | none => reloadAfterDestroy b1 true
  else
    reloadAfterDestroy b1 false

/-! ### Property store

Translation of `properties.Register` and `properties.Extend` from
`properties.go`.  A store's own `Priority()` reads its mutable `priority`
field, so a store registered as a resolver (every store registers itself in
`NewProperties`) reports the priority current at query time; the
environment `PropWorld` carries each store's priority field and resolver
entries reference stores by id. -/

/-- The priority of `NewProperties`, the constant
`defaultPropertyResolverPriority` of the source. -/
def defaultPropertyResolverPriority : Int := 100

/-- A registered property resolver: either a property store itself
(priority read dynamically from the store's priority field) or an external
resolver with a fixed priority. -/
inductive PRes
  | storeRef (sid : Nat)
  | ext (rid : Nat) (p : Int)
deriving DecidableEq, Repr

/-- The priority fields of all live property stores. -/
structure PropWorld where
  prio : List (Nat × Int)
deriving DecidableEq, Repr

/-- Priority field of one store (`defaultPropertyResolverPriority` until
changed). -/
def PropWorld.get (w : PropWorld) (sid : Nat) : Int :=
  (w.prio.lookup sid).getD defaultPropertyResolverPriority

/-- Update of one store's priority field. -/
def PropWorld.set (w : PropWorld) (sid : Nat) (p : Int) : PropWorld :=
  { prio := (sid, p) :: w.prio }

/-- A resolver's `Priority()` as observed in a given world. -/
def resPriority (w : PropWorld) : PRes → Int
  | .storeRef sid => w.get sid
  | .ext _ p => p

/-- Descending-priority comparison, the `sort.Slice` comparator
`resolvers[i].Priority() >= resolvers[j].Priority()` of `Register` and
`Extend`. -/
def resGE (w : PropWorld) (a b : PRes) : Prop := resPriority w b ≤ resPriority w a

instance (w : PropWorld) : DecidableRel (resGE w) :=
  fun a b => inferInstanceAs (Decidable (resPriority w b ≤ resPriority w a))

instance (w : PropWorld) : IsTotal PRes (resGE w) :=
  ⟨fun a b => Int.le_total (resPriority w b) (resPriority w a)⟩

instance (w : PropWorld) : IsTrans PRes (resGE w) :=
  ⟨fun _ _ _ hab hbc => le_trans hbc hab⟩

/-- A property store: its identity (indexing its priority field in the
world) and its registered resolvers, kept sorted by descending priority. -/
structure PropStore where
  sid : Nat
  resolvers : List PRes
deriving DecidableEq, Repr

/-- A fresh store, from `NewProperties`: default priority, registered as
its own first resolver. -/
def newProperties (w : PropWorld) (sid : Nat) : PropWorld × PropStore :=
  (w.set sid defaultPropertyResolverPriority, { sid := sid, resolvers := [.storeRef sid] })

/-- Registration of one resolver, from `properties.Register`: append, then
sort by descending priority once more than one resolver is present. -/
def registerResolver (w : PropWorld) (s : PropStore) (r : PRes) : PropStore :=
  let rs := s.resolvers ++ [r]
  { s with resolvers := if 1 < rs.length then List.insertionSort (resGE w) rs else rs }

/-- Extension of a child store from a parent, from `properties.Extend`:
the child's own priority field is raised to one more than the maximum of
its current value and the parent's priority, the parent's resolvers are
appended unchanged, and the union is re-sorted by descending priority as
observed after the raise. -/
def extendStore (w : PropWorld) (child parent : PropStore) : PropWorld × PropStore :=
  let r := parent.resolvers
  let w' := w.set child.sid (max (w.get child.sid) (w.get parent.sid) + 1)
  (w', { child with resolvers := List.insertionSort (resGE w') (child.resolvers ++ r) })

/-! ### Statement-level definitions -/

/-- Strict precedence in a list: `d` occurs in a proper initial segment
that ends before some occurrence of `b`. -/
def prior (l : List Nat) (d b : Nat) : Prop :=
  ∃ l1 l2, l = l1 ++ l2 ∧ d ∈ l1 ∧ b ∈ l2

/-- A plain bean handle with no name override, order or factory. -/
def plainBean (i : Nat) : RBean :=
  { id := i, name := toString i, ordered := false, order := 0, isFactory := false }

/-- The injection definition of a plain required scalar field. -/
def hardDef : InjectDef :=
  { fieldName := "Dep", slice := false, table := false, lazy := false,
    optional := false, qualifier := "", level := 0, canSet := true }

/-- A required non-lazy scalar field resolved to one plain bean. -/
def hardField (target : Nat) : WiredField :=
  ⟨hardDef, [⟨1, [plainBean target]⟩]⟩

/-- A lazy scalar field resolved to one plain bean. -/
def lazyField (target : Nat) : WiredField :=
  ⟨{ hardDef with lazy := true }, [⟨1, [plainBean target]⟩]⟩

/-- Wired beans forming a dependency ring: each bean requires the next,
the last wrapping around to `first`. -/
def ringWired : List Nat → Nat → List WiredBean
  | [], _ => []
  | [x], first =>
    [{ rbean := plainBean x, fields := [hardField first], postOk := true, disposable := false }]
  | x :: y :: rest, first =>
    { rbean := plainBean x, fields := [hardField y], postOk := true, disposable := false } ::
      ringWired (y :: rest) first

/-- The dependency map the injection phase records for `ringWired`. -/
def ringDepsMap : List Nat → Nat → List (Nat × List Nat)
  | [], _ => []
  | [x], first => [(x, [first])]
  | x :: y :: rest, first => (x, [y]) :: ringDepsMap (y :: rest) first

/-- Successor along the ring: the element following `b`, wrapping to
`first` after the last element. -/
def ringNext : List Nat → Nat → Nat → Nat
  | [], first, _ => first
  | [_], first, _ => first
  | x :: y :: rest, first, b => if x = b then y else ringNext (y :: rest) first b

/-- Consecutive ring positions hold distinct ids and the last id differs
from the wrap-around target. -/
def ringDistinct : List Nat → Nat → Bool
  | [], _ => true
  | [x], first => x ≠ first
  | x :: y :: rest, first => x ≠ y && ringDistinct (y :: rest) first

/-- A single bean with a required non-lazy field injecting the bean
itself, the configuration of the `TestSelfDepCycle` repository test. -/
def selfCycleBeans : List WiredBean :=
  [{ rbean := plainBean 0, fields := [hardField 0], postOk := true, disposable := false }]

/-- Three beans in a dependency ring in which exactly the edge from bean 2
back to bean 0 is declared lazy. -/
def lazyRingBeans : List WiredBean :=
  [{ rbean := plainBean 0, fields := [hardField 1], postOk := true, disposable := false },
   { rbean := plainBean 1, fields := [hardField 2], postOk := true, disposable := false },
   { rbean := plainBean 2, fields := [lazyField 0], postOk := true, disposable := false }]

/-- A bean declaring an explicit order. -/
def ordBean (i : Nat) (o : Int) : RBean :=
  { id := i, name := toString i, ordered := true, order := o, isFactory := false }

/-- A context about to be closed holding two initialized disposables, the
earlier-constructed one failing on `Destroy`. -/
def closeExample : CloseCtx :=
  { childErrs := []
    disposables :=
      [{ id := 1, lifecycle := .BeanInitialized, isDisposable := true,
         destroyErr := some (.destroyFailed 1) },
       { id := 2, lifecycle := .BeanInitialized, isDisposable := true, destroyErr := none }]
    closedOnce := false
    destroyLog := [] }

/-- A factory-produced bean whose `Destroy` hook itself fails. -/
def reloadFactoryFailingDestroy : ReloadBean :=
  { name := "fb", isFactory := true, isDisposable := true,
    destroyErr := some (.destroyFailed 7), isInitializing := true,
    postConstructErr := none, lifecycle := .BeanInitialized }

/-- A factory-produced bean whose `Destroy` hook succeeds. -/
def reloadFactoryOkDestroy : ReloadBean :=
  { name := "fb", isFactory := true, isDisposable := true,
    destroyErr := none, isInitializing := true,
    postConstructErr := none, lifecycle := .BeanInitialized }

/-- The injection definition of a required name-keyed map field. -/
def mapDef : InjectDef := { hardDef with table := true, fieldName := "Map" }

/-- A bean sharing the logical name of `plainBean 1` under a different id. -/
def dupNameBean : RBean :=
  { id := 3, name := "1", ordered := false, order := 0, isFactory := false }

/-- A parent property store and a child store extended from it, both at
the default priority beforehand. -/
def extendExample : PropWorld × PropStore × PropStore :=
  let p := newProperties { prio := [] } 0
  let c := newProperties p.1 1
  let e := extendStore c.1 c.2 p.2
  (e.1, e.2, p.2)

/-- A two-bean graph in which bean 1 hard-depends on bean 0. -/
def exampleGraph : CtxGraph :=
  { beans := [0, 1]
    dependencies := fun b => if b = 1 then [0] else []
    postConstructOk := fun _ => true
    disposable := fun _ => false }

/-- Invariant of the construction pass: a bean is `BeanInitialized` exactly
when it appears in the completion order, every completed bean's hard
dependencies complete strictly earlier, and no bean completes twice. -/
structure CInv (g : CtxGraph) (st : ConstructState) : Prop where
  initMem : ∀ x, st.lifecycle x = .BeanInitialized ↔ x ∈ st.initOrder
  topo : ∀ b ∈ st.initOrder, ∀ d ∈ g.dependencies b, prior st.initOrder d b
  nodup : st.initOrder.Nodup

/-- Every bean on the active construction stack is mid-construction. -/
def StackOK (st : ConstructState) (stack : List Nat) : Prop :=
  ∀ x ∈ stack, st.lifecycle x = .BeanConstructing

/-- Construction never loses the `BeanInitialized` state. -/
def LifeMono (st st' : ConstructState) : Prop :=
  ∀ x, st.lifecycle x = .BeanInitialized → st'.lifecycle x = .BeanInitialized

/-! ## Theorems -/

theorem filter_not_eq_self_of_filter_nil {p : RBean → Bool} {l : List RBean}
    (h : l.filter p = []) : l.filter (fun c => !p c) = l := by
  apply List.filter_eq_self.mpr
  intro a ha
  have := (List.filter_eq_nil_iff).mp h a ha
  simpa using this

/-- C6: in every final candidate set the beans declaring an explicit order
come first, sorted ascending by their order value, and the beans without an
explicit order follow in their original registration order; in particular
orders {2,0,1} plus one unordered bean yield order 0, order 1, order 2,
then the unordered bean. -/
theorem C6_ordered_beans_sorted_first (cs : List RBean) :
    (∃ front, orderBeans cs = front ++ cs.filter (fun c => !c.ordered) ∧
      front.Perm (cs.filter (fun c => c.ordered)) ∧ front.Sorted beanLE) ∧
    orderBeans [ordBean 1 2, ordBean 2 0, ordBean 3 1, plainBean 9] =
      [ordBean 2 0, ordBean 3 1, ordBean 1 2, plainBean 9] := by
  constructor
  · unfold orderBeans
    by_cases h0 : 0 < (cs.filter (fun c => c.ordered)).length
    · rw [if_pos h0]
      by_cases hne : (cs.filter (fun c => c.ordered)).length ≠ cs.length
      · rw [if_pos hne]
        exact ⟨_, rfl, List.perm_insertionSort _ _, List.sorted_insertionSort _ _⟩
      · rw [if_neg hne]
        push_neg at hne
        have hall := (List.filter_sublist (p := fun c => c.ordered) cs).eq_of_length hne
        have hnil : cs.filter (fun c => !c.ordered) = [] := by
          apply (List.filter_eq_nil_iff).mpr
          intro a ha
          have := List.filter_eq_self.mp hall a ha
          simpa using this
        exact ⟨_, by rw [hnil, List.append_nil],
          List.perm_insertionSort _ _, List.sorted_insertionSort _ _⟩
    · rw [if_neg h0]
      have hnil : cs.filter (fun c => c.ordered) = [] := by
        simpa [List.length_eq_zero] using h0
      refine ⟨[], ?_, by simp [hnil], List.sorted_nil⟩
      rw [List.nil_append, filter_not_eq_self_of_filter_nil hnil]
  · decide

theorem findDirectFrom_level_ge :
    ∀ (gens : List (List RBean)) (lvl : Int), ∀ e ∈ findDirectFrom lvl gens, lvl ≤ e.level := by
  intro gens
  induction gens with
  | nil => intro lvl e he; simp [findDirectFrom] at he
  | cons g rest ih =>
    intro lvl e he
    by_cases hg : g.isEmpty
    · rw [findDirectFrom, if_pos hg] at he
      have := ih (lvl + 1) e he
      omega
    · rw [findDirectFrom, if_neg hg] at he
      rcases List.mem_cons.mp he with h | h
      · rw [h]
      · have := ih (lvl + 1) e h
        omega

theorem levelBeans_findDirectFrom_zero :
    ∀ (gens : List (List RBean)) (lvl : Int),
      levelBeans (findDirectFrom lvl gens) 0 = firstNonEmptyGen gens := by
  intro gens
  induction gens with
  | nil => intro lvl; rfl
  | cons g rest ih =>
    intro lvl
    by_cases hg : g.isEmpty
    · rw [findDirectFrom, if_pos hg, firstNonEmptyGen, if_pos hg]
      exact ih (lvl + 1)
    · rw [findDirectFrom, if_neg hg, firstNonEmptyGen, if_neg hg]
      rfl

theorem levelBeans_neg_one (deep : List BeanList) :
    levelBeans deep (-1) = (deep.map BeanList.list).flatten := rfl

theorem levelBeans_findDirectFrom_all :
    ∀ (gens : List (List RBean)) (lvl : Int),
      levelBeans (findDirectFrom lvl gens) (-1) = gens.flatten := by
  intro gens
  induction gens with
  | nil => intro lvl; rfl
  | cons g rest ih =>
    intro lvl
    by_cases hg : g.isEmpty
    · have hnil : g = [] := List.isEmpty_iff.mp hg
      rw [findDirectFrom, if_pos hg, ih (lvl + 1)]
      simp [hnil]
    · rw [findDirectFrom, if_neg hg]
      have := ih (lvl + 1)
      rw [levelBeans_neg_one] at this ⊢
      simp [this]

theorem takeWhile_findDirectFrom (k : Int) :
    ∀ (gens : List (List RBean)) (lvl : Int),
      (((findDirectFrom lvl gens).takeWhile (fun e => e.level ≤ k)).map BeanList.list).flatten
        = (gens.take (k - lvl + 1).toNat).flatten := by
  intro gens
  induction gens with
  | nil => intro lvl; simp [findDirectFrom]
  | cons g rest ih =>
    intro lvl
    by_cases hg : g.isEmpty
    · have hnil : g = [] := List.isEmpty_iff.mp hg
      rw [findDirectFrom, if_pos hg, ih (lvl + 1)]
      rcases le_or_lt (k - lvl + 1) 0 with hle | hpos
      · have h1 : (k - lvl + 1).toNat = 0 := Int.toNat_of_nonpos hle
        have h2 : (k - (lvl + 1) + 1).toNat = 0 := by omega
        simp [h1, h2]
      · have h1 : (k - lvl + 1).toNat = (k - (lvl + 1) + 1).toNat + 1 := by omega
        simp [h1, hnil]
    · rw [findDirectFrom, if_neg hg]
      by_cases hlk : lvl ≤ k
      · rw [List.takeWhile_cons_of_pos (by simpa using hlk)]
        have h1 : (k - lvl + 1).toNat = (k - (lvl + 1) + 1).toNat + 1 := by omega
        simp only [List.map_cons, List.flatten_cons, ih (lvl + 1), h1, List.take_succ_cons,
          List.flatten_cons]
      · rw [List.takeWhile_cons_of_neg (by simpa using hlk)]
        have h1 : (k - lvl + 1).toNat = 0 := by omega
        simp [h1]

/-- C5: candidate selection by level over a chain of context generations
(generation 1 is the current context): level 0 yields the nearest non-empty
generation, level 1 yields the current context's candidates only, level
k at least 2 yields the union of generations 1 through k, and level -1
yields the union of all generations. -/
theorem C5_lookup_levels (gens : List (List RBean)) (k : Int) :
    levelBeans (findDirectRecursive gens) 0 = firstNonEmptyGen gens ∧
    levelBeans (findDirectRecursive gens) 1 = gens.headD [] ∧
    (2 ≤ k → levelBeans (findDirectRecursive gens) k = (gens.take k.toNat).flatten) ∧
    levelBeans (findDirectRecursive gens) (-1) = gens.flatten := by
  refine ⟨levelBeans_findDirectFrom_zero gens 1, ?_, ?_, levelBeans_findDirectFrom_all gens 1⟩
  · match gens with
    | [] => rfl
    | g :: rest =>
      by_cases hg : g.isEmpty
      · have hnil : g = [] := List.isEmpty_iff.mp hg
        rw [findDirectRecursive, findDirectFrom, if_pos hg]
        match hfd : findDirectFrom 2 rest with
        | [] => simp [levelBeans, hnil]
        | e :: tl =>
          have hlev : (2 : Int) ≤ e.level :=
            findDirectFrom_level_ge rest 2 e (by rw [hfd]; exact List.mem_cons_self e tl)
          have hne : e.level ≠ 1 := by omega
          simp [levelBeans, hne, hnil]
      · rw [findDirectRecursive, findDirectFrom, if_neg hg]
        simp [levelBeans]
  · intro hk
    have h1 : k ≠ -1 := by omega
    have h2 : k ≠ 0 := by omega
    have h3 : k ≠ 1 := by omega
    have := takeWhile_findDirectFrom k gens 1
    have harith : (k - 1 + 1).toNat = k.toNat := by omega
    rw [harith] at this
    rw [findDirectRecursive]
    rw [levelBeans.eq_def, if_neg h1, if_neg h2, if_neg h3]
    exact this

/-- Witness for C5 at a concrete two-generation chain and level 2. -/
theorem C5_lookup_levels_witness :
    levelBeans (findDirectRecursive [[], [plainBean 4], [plainBean 5]]) 0 = [plainBean 4] ∧
    levelBeans (findDirectRecursive [[], [plainBean 4], [plainBean 5]]) 1 = [] ∧
    levelBeans (findDirectRecursive [[], [plainBean 4], [plainBean 5]]) 2 = [plainBean 4] ∧
    levelBeans (findDirectRecursive [[], [plainBean 4], [plainBean 5]]) (-1) =
      [plainBean 4, plainBean 5] := by
  obtain ⟨h0, h1, h2, hall⟩ := C5_lookup_levels [[], [plainBean 4], [plainBean 5]] 2
  exact ⟨by rw [h0]; decide, by rw [h1]; rfl, by rw [h2 (by decide)]; decide,
    by rw [hall]; decide⟩

/-- C7: a scalar (non-slice, non-map) injection needs exactly one final
candidate: zero candidates is an error unless the field is optional, in
which case the field stays unset without error; more than one candidate is
an error regardless of the optional modifier; and success requires one
candidate or the tolerated optional-zero case. -/
theorem C7_scalar_cardinality (self : RBean) (d : InjectDef) (deep : List BeanList)
    (hslice : d.slice = false) (htable : d.table = false) (hset : d.canSet = true) :
    (finalCandidates d deep = [] → d.optional = false →
      inject self d deep = .error (.noCandidates d.fieldName d.qualifier)) ∧
    (finalCandidates d deep = [] → d.optional = true →
      inject self d deep = .ok { value := .unset, deps := [], factoryDeps := [] }) ∧
    (1 < (finalCandidates d deep).length →
      inject self d deep = .error (.multipleCandidates d.fieldName)) ∧
    (∀ r, inject self d deep = .ok r →
      (finalCandidates d deep).length = 1 ∨
        (finalCandidates d deep = [] ∧ d.optional = true)) := by
  refine ⟨?_, ?_, ?_, ?_⟩
  · intro hnil hopt
    rw [inject, hset]
    rw [hnil]
    simp [hopt]
  · intro hnil hopt
    rw [inject, hset]
    rw [hnil]
    simp [hopt]
  · intro hlen
    rw [inject, hset]
    match hfc : finalCandidates d deep with
    | [] => rw [hfc] at hlen; simp at hlen
    | impl :: rest =>
      rw [hfc] at hlen
      simp only [List.length_cons] at hlen
      have hrest : 0 < rest.length := by omega
      simp [hslice, htable, hrest]
  · intro r hok
    rw [inject, hset] at hok
    match hfc : finalCandidates d deep with
    | [] =>
      rw [hfc] at hok
      by_cases hopt : d.optional
      · exact Or.inr ⟨rfl, hopt⟩
      · simp [hopt] at hok
    | impl :: rest =>
      rw [hfc] at hok
      simp only [hslice, htable, Bool.false_eq_true, if_false] at hok
      by_cases hrest : 0 < rest.length
      · rw [if_pos hrest] at hok
        exact absurd hok (by simp)
      · have : rest.length = 0 := by omega
        simp [List.length_eq_zero.mp this]

/-- Run of the map-injection loop over materialized candidates with
pairwise-distinct names not yet visited: every candidate is stored under
its logical name. -/
theorem injectTableGo_ok (self : RBean) (d : InjectDef) :
    ∀ (list : List RBean) (visited : List String) (entries : List (String × Nat))
      (deps fdeps : List Nat),
      (∀ b ∈ list, b.isFactory = false) →
      (list.map RBean.name).Nodup →
      (∀ b ∈ list, b.name ∉ visited) →
      injectTableGo self d list visited entries deps fdeps =
        .ok { value := .table (entries ++ list.map fun b => (b.name, b.id))
              deps := deps ++
                (list.filter (fun b => !d.lazy && b.id != self.id)).map RBean.id
              factoryDeps := fdeps } := by
  intro list
  induction list with
  | nil => intro visited entries deps fdeps _ _ _; simp [injectTableGo]
  | cons impl rest ih =>
    intro visited entries deps fdeps hfac hnodup hvis
    have hfi : impl.isFactory = false := hfac impl (List.mem_cons_self _ _)
    have hvi : impl.name ∉ visited := hvis impl (List.mem_cons_self _ _)
    rw [List.map_cons] at hnodup
    have hni : impl.name ∉ rest.map RBean.name := (List.nodup_cons.mp hnodup).1
    rw [injectTableGo, if_neg (by simp [hfi]), if_neg hvi]
    rw [ih (impl.name :: visited) _ _ _
      (fun b hb => hfac b (List.mem_cons_of_mem _ hb))
      hnodup.of_cons
      ?_]
    · simp only [List.map_cons, List.filter_cons]
      by_cases hc : (!d.lazy && impl.id != self.id) = true
      · simp [hc]
      · simp only [Bool.not_eq_true] at hc
        simp [hc]
    · intro b hb
      simp only [List.mem_cons, not_or]
      constructor
      · intro heq
        have : impl.name ∈ rest.map RBean.name := by
          rw [← heq]; exact List.mem_map_of_mem RBean.name hb
        exact absurd this hni
      · exact hvis b (List.mem_cons_of_mem _ hb)

/-- Run of the map-injection loop over materialized candidates holding a
repeated name (or a name already visited): the loop fails with a
duplicate-key error. -/
theorem injectTableGo_dup (self : RBean) (d : InjectDef) :
    ∀ (list : List RBean) (visited : List String) (entries : List (String × Nat))
      (deps fdeps : List Nat),
      (∀ b ∈ list, b.isFactory = false) →
      ¬ ((list.map RBean.name).Nodup ∧ ∀ b ∈ list, b.name ∉ visited) →
      ∃ n, injectTableGo self d list visited entries deps fdeps =
        .error (.duplicateMapKey n d.fieldName) := by
  intro list
  induction list with
  | nil =>
    intro visited entries deps fdeps _ hbad
    exact absurd ⟨List.nodup_nil, by intro b hb; simp at hb⟩ hbad
  | cons impl rest ih =>
    intro visited entries deps fdeps hfac hbad
    have hfi : impl.isFactory = false := hfac impl (List.mem_cons_self _ _)
    rw [injectTableGo, if_neg (by simp [hfi])]
    by_cases hvi : impl.name ∈ visited
    · exact ⟨impl.name, by rw [if_pos hvi]⟩
    · rw [if_neg hvi]
      apply ih (impl.name :: visited) _ _ _
        (fun b hb => hfac b (List.mem_cons_of_mem _ hb))
      intro ⟨hnd, hvs⟩
      apply hbad
      constructor
      · simp only [List.map_cons, List.nodup_cons]
        refine ⟨?_, hnd⟩
        intro hmem
        obtain ⟨b, hb, hbn⟩ := List.mem_map.mp hmem
        have := hvs b hb
        simp [hbn] at this
      · intro b hb
        rcases List.mem_cons.mp hb with h | h
        · rw [h]; exact hvi
        · have := hvs b h
          simp only [List.mem_cons, not_or] at this
          exact this.2

/-- C8: a name-keyed map injection stores each materialized candidate
under its logical name, and fails with a duplicate-key error instead of
overwriting when two candidates share a name. -/
theorem C8_map_keyed_by_name (self : RBean) (d : InjectDef) (deep : List BeanList)
    (hslice : d.slice = false) (htable : d.table = true) (hset : d.canSet = true)
    (hfac : ∀ b ∈ finalCandidates d deep, b.isFactory = false)
    (hne : finalCandidates d deep ≠ []) :
    (((finalCandidates d deep).map RBean.name).Nodup →
      inject self d deep = .ok
        { value := .table ((finalCandidates d deep).map fun b => (b.name, b.id))
          deps := ((finalCandidates d deep).filter
            (fun b => !d.lazy && b.id != self.id)).map RBean.id
          factoryDeps := [] }) ∧
    (¬ ((finalCandidates d deep).map RBean.name).Nodup →
      ∃ n, inject self d deep = .error (.duplicateMapKey n d.fieldName)) := by
  constructor
  · intro hnodup
    rw [inject, hset]
    match hfc : finalCandidates d deep with
    | [] => exact absurd hfc hne
    | impl :: rest =>
      rw [hfc] at hfac hnodup
      simp only [hslice, Bool.false_eq_true, if_false, htable, if_true]
      exact injectTableGo_ok self d (impl :: rest) [] [] [] [] hfac hnodup
        (by intro b _; simp)
  · intro hdup
    rw [inject, hset]
    match hfc : finalCandidates d deep with
    | [] => exact absurd hfc hne
    | impl :: rest =>
      rw [hfc] at hfac hdup
      simp only [hslice, Bool.false_eq_true, if_false, htable, if_true]
      exact injectTableGo_dup self d (impl :: rest) [] [] [] [] hfac
        (by intro ⟨hnd, _⟩; exact hdup hnd)

/-- Witness for C7: two candidates for a required scalar field give the
ambiguity error. -/
theorem C7_scalar_cardinality_witness :
    inject (plainBean 0) hardDef [⟨1, [plainBean 1, plainBean 2]⟩] =
      .error (.multipleCandidates "Dep") :=
  (C7_scalar_cardinality (plainBean 0) hardDef [⟨1, [plainBean 1, plainBean 2]⟩]
      rfl rfl rfl).2.2.1 (by decide)

/-- Witness for C8: distinct names succeed with both entries present under
their logical names; a shared name fails with a duplicate-key error. -/
theorem C8_map_keyed_by_name_witness :
    inject (plainBean 0) mapDef [⟨1, [plainBean 1, plainBean 2]⟩] =
      .ok { value := .table [("1", 1), ("2", 2)], deps := [1, 2], factoryDeps := [] } ∧
    (∃ n, inject (plainBean 0) mapDef [⟨1, [plainBean 1, dupNameBean]⟩] =
      .error (.duplicateMapKey n "Map")) := by
  constructor
  · have h := (C8_map_keyed_by_name (plainBean 0) mapDef [⟨1, [plainBean 1, plainBean 2]⟩]
      rfl rfl rfl (by decide) (by decide)).1 (by decide)
    exact h.trans (by decide)
  · exact (C8_map_keyed_by_name (plainBean 0) mapDef [⟨1, [plainBean 1, dupNameBean]⟩]
      rfl rfl rfl (by decide) (by decide)).2 (by decide)

/-- C10 (amended): reloading a factory-produced bean always returns an
error and never calls `PostConstruct` again; its `Destroy` hook runs
exactly when implemented; if the hook is absent or succeeds, the returned
error is the factory-reload error and the bean is left at
`BeanConstructing`; if the hook itself fails, that failure is returned and
the bean is left at `BeanDestroying`. -/
theorem C10_reload_factory_bean (b : ReloadBean) (hf : b.isFactory = true) :
    (reloadBean b).result.isSome = true ∧
    (reloadBean b).postConstructCalled = false ∧
    (reloadBean b).destroyCalled = b.isDisposable ∧
    ((b.isDisposable = true → b.destroyErr = none) →
      (reloadBean b).result = some (.factoryReload b.name) ∧
      (reloadBean b).bean.lifecycle = .BeanConstructing) ∧
    (b.isDisposable = true → ∀ e, b.destroyErr = some e →
      (reloadBean b).result = some e ∧
      (reloadBean b).bean.lifecycle = .BeanDestroying) := by
  by_cases hd : b.isDisposable = true
  · match he : b.destroyErr with
    | some e =>
      simp [reloadBean, reloadAfterDestroy, hd, he, hf]
    | none =>
      simp [reloadBean, reloadAfterDestroy, hd, he, hf]
  · have hd' : b.isDisposable = false := by
      revert hd; cases b.isDisposable <;> simp
    simp [reloadBean, reloadAfterDestroy, hd', hf]

/-- Counterexample for C10 as stated: a factory-produced bean whose
`Destroy` hook fails is left at `BeanDestroying`, not `BeanConstructing`. -/
theorem C10_reload_factory_counterexample :
    (reloadBean reloadFactoryFailingDestroy).result = some (.destroyFailed 7) ∧
    (reloadBean reloadFactoryFailingDestroy).bean.lifecycle = .BeanDestroying ∧
    (reloadBean reloadFactoryFailingDestroy).bean.lifecycle ≠ .BeanConstructing := by
  decide

/-- Witness for C10 at a factory-produced bean with a succeeding
`Destroy` hook. -/
theorem C10_reload_factory_witness :
    (reloadBean reloadFactoryOkDestroy).result = some (.factoryReload "fb") ∧
    (reloadBean reloadFactoryOkDestroy).bean.lifecycle = .BeanConstructing ∧
    (reloadBean reloadFactoryOkDestroy).destroyCalled = true ∧
    (reloadBean reloadFactoryOkDestroy).postConstructCalled = false := by
  obtain ⟨_, h2, h3, h4, _⟩ := C10_reload_factory_bean reloadFactoryOkDestroy rfl
  obtain ⟨h5, h6⟩ := h4 (fun _ => rfl)
  exact ⟨h5, h6, by rw [h3]; rfl, h2⟩

theorem propWorld_get_set (w : PropWorld) (sid : Nat) (p : Int) (s : Nat) :
    (w.set sid p).get s = if s = sid then p else w.get s := by
  by_cases h : s = sid
  · simp [PropWorld.get, PropWorld.set, List.lookup, h]
  · have : (s == sid) = false := by simpa using h
    simp [PropWorld.get, PropWorld.set, List.lookup, this, h]

/-- C9 (amended): extending a child property store from a parent raises
the child store's own priority field to one more than the maximum of its
previous value and the parent's priority, hence strictly above both; every
other store's priority, the parent's included, is unchanged, so the
parent's resolvers are appended at their existing priorities; the combined
resolver list is then deterministically re-sorted by descending priority. -/
theorem C9_extend_property_store (w : PropWorld) (child parent : PropStore) :
    (∀ s, s ≠ child.sid →
      ((extendStore w child parent).1).get s = w.get s) ∧
    ((extendStore w child parent).1).get child.sid =
      max (w.get child.sid) (w.get parent.sid) + 1 ∧
    w.get parent.sid < ((extendStore w child parent).1).get child.sid ∧
    w.get child.sid < ((extendStore w child parent).1).get child.sid ∧
    ((extendStore w child parent).2).resolvers.Perm
      (child.resolvers ++ parent.resolvers) ∧
    ((extendStore w child parent).2).resolvers.Sorted
      (resGE (extendStore w child parent).1) := by
  refine ⟨?_, ?_, ?_, ?_, ?_, ?_⟩
  · intro s hs
    rw [extendStore]
    rw [propWorld_get_set, if_neg hs]
  · rw [extendStore]
    rw [propWorld_get_set, if_pos rfl]
  · rw [extendStore]
    rw [propWorld_get_set, if_pos rfl]
    have := le_max_right (w.get child.sid) (w.get parent.sid)
    omega
  · rw [extendStore]
    rw [propWorld_get_set, if_pos rfl]
    have := le_max_left (w.get child.sid) (w.get parent.sid)
    omega
  · exact List.perm_insertionSort _ _
  · exact List.sorted_insertionSort _ _

/-- Counterexample for C9 as stated: after extending a freshly created
child store from a freshly created parent store (both at the default
priority 100), the parent's resolver is present in the child's list but
still reports priority 100, which is not strictly greater than the
parent's priority (also 100) nor than the child's previous priority. -/
theorem C9_extend_counterexample :
    PRes.storeRef 0 ∈ extendExample.2.1.resolvers ∧
    resPriority extendExample.1 (PRes.storeRef 0) = 100 ∧
    extendExample.1.get 0 = 100 ∧
    ¬ extendExample.1.get 0 < resPriority extendExample.1 (PRes.storeRef 0) := by
  decide

/-- Witness for C9 at the concrete freshly-created parent and child. -/
theorem C9_extend_property_store_witness :
    ((extendStore (newProperties ((newProperties { prio := [] } 0).1) 1).1
        (newProperties ((newProperties { prio := [] } 0).1) 1).2
        (newProperties { prio := [] } 0).2).1).get 1 = 101 ∧
    ((extendStore (newProperties ((newProperties { prio := [] } 0).1) 1).1
        (newProperties ((newProperties { prio := [] } 0).1) 1).2
        (newProperties { prio := [] } 0).2).1).get 0 = 100 := by
  obtain ⟨h1, h2, _, _, _, _⟩ := C9_extend_property_store
    (newProperties ((newProperties { prio := [] } 0).1) 1).1
    (newProperties ((newProperties { prio := [] } 0).1) 1).2
    (newProperties { prio := [] } 0).2
  constructor
  · exact h2.trans (by decide)
  · exact (h1 0 (by decide)).trans (by decide)

theorem destroyList_log (l : List DBean) :
    (destroyList l).2.2 = l.map DBean.id := by
  induction l with
  | nil => rfl
  | cons b rest ih => simp [destroyList, ih]

/-- C4 (amended): the teardown pass runs exactly once: the first `Close`
collects the children's failures first, then visits every disposable in
strict reverse construction order regardless of failures, reporting all
collected failures together; a second `Close` leaves the context unchanged
and returns the empty result, so both calls observe the same result
exactly when the first teardown pass collected no failures. -/
theorem C4_close_runs_once (c : CloseCtx) (hopen : c.closedOnce = false) :
    (closeContext (closeContext c).2).2 = (closeContext c).2 ∧
    (closeContext (closeContext c).2).1 = [] ∧
    ((closeContext c).2).destroyLog =
      c.destroyLog ++ c.disposables.reverse.map DBean.id ∧
    (closeContext c).1 =
      c.childErrs.filterMap id ++ (destroyList c.disposables.reverse).1 ∧
    ((closeContext c).1 = (closeContext (closeContext c).2).1 ↔
      (closeContext c).1 = []) := by
  have h1 : closeContext c =
      (c.childErrs.filterMap id ++ (destroyList c.disposables.reverse).1,
        { c with
          closedOnce := true
          disposables := (destroyList c.disposables.reverse).2.1.reverse
          destroyLog := c.destroyLog ++ (destroyList c.disposables.reverse).2.2 }) := by
    rw [closeContext, if_neg (by rw [hopen]; simp)]
  have h2 : (closeContext c).2.closedOnce = true := by rw [h1]
  have h3 : closeContext (closeContext c).2 = ([], (closeContext c).2) := by
    rw [closeContext, if_pos h2]
  refine ⟨by rw [h3], by rw [h3], ?_, by rw [h1], ?_⟩
  · rw [h1]
    simp [destroyList_log]
  · rw [h3]

/-- Counterexample for C4 as stated: with a disposable whose `Destroy`
fails, the first `Close` reports that failure while the second `Close`
returns no error, so the two callers do not observe the same result. -/
theorem C4_close_counterexample :
    (closeContext closeExample).1 = [.destroyFailed 1] ∧
    (closeContext (closeContext closeExample).2).1 = [] ∧
    (closeContext closeExample).1 ≠ (closeContext (closeContext closeExample).2).1 := by
  decide

/-- Witness for C4 at the concrete context with one failing disposable. -/
theorem C4_close_runs_once_witness :
    (closeContext (closeContext closeExample).2).2 = (closeContext closeExample).2 ∧
    (closeContext closeExample).2.destroyLog = [2, 1] := by
  obtain ⟨h1, _, h3, _, _⟩ := C4_close_runs_once closeExample rfl
  exact ⟨h1, by rw [h3]; decide⟩

theorem lifecycle_setLife (st : ConstructState) (b : Nat) (l : BeanLifecycle) (x : Nat) :
    (st.setLife b l).lifecycle x = if x = b then l else st.lifecycle x := by
  by_cases h : x = b
  · simp [ConstructState.lifecycle, ConstructState.setLife, List.lookup, h]
  · have : (x == b) = false := by simpa using h
    simp [ConstructState.lifecycle, ConstructState.setLife, List.lookup, this, h]

theorem lifecycle_finishBean (g : CtxGraph) (st : ConstructState) (b x : Nat) :
    (finishBean g st b).lifecycle x = if x = b then .BeanInitialized else st.lifecycle x := by
  by_cases h : x = b
  · simp [ConstructState.lifecycle, finishBean, List.lookup, h]
  · have : (x == b) = false := by simpa using h
    simp [ConstructState.lifecycle, finishBean, List.lookup, this, h]

theorem initOrder_finishBean (g : CtxGraph) (st : ConstructState) (b : Nat) :
    (finishBean g st b).initOrder = st.initOrder ++ [b] := rfl

theorem constructBean_zero (g : CtxGraph) (st : ConstructState) (b : Nat) (stack : List Nat) :
    constructBean g 0 st b stack = .error .outOfFuel := by
  rw [constructBean]

theorem constructBean_succ (g : CtxGraph) (fuel : Nat) (st : ConstructState) (b : Nat)
    (stack : List Nat) :
    constructBean g (fuel + 1) st b stack =
      if st.lifecycle b = .BeanInitialized then
        .ok st
      else if st.lifecycle b = .BeanConstructing ∧ b ∈ stack then
        .error (.cycleDetected (cyclePath stack b))
      else
        match runList (fun s d => constructBean g fuel s d (stack ++ [b]))
            (st.setLife b .BeanConstructing) (g.dependencies b) with
        | .error e => .error e
        | .ok st2 =>
          if g.postConstructOk b then .ok (finishBean g st2 b)
          else .error (.postConstructFailed b) := by
  rw [constructBean]

theorem prior_append_right {l : List Nat} {d b : Nat} (t : List Nat) (h : prior l d b) :
    prior (l ++ t) d b := by
  obtain ⟨l1, l2, rfl, hd, hb⟩ := h
  exact ⟨l1, l2 ++ t, by rw [List.append_assoc], hd, List.mem_append_left t hb⟩

theorem prior_append_new {l : List Nat} {d b : Nat} (hd : d ∈ l) :
    prior (l ++ [b]) d b :=
  ⟨l, [b], rfl, hd, List.mem_singleton_self b⟩

theorem LifeMono.trans {s1 s2 s3 : ConstructState} (h12 : LifeMono s1 s2)
    (h23 : LifeMono s2 s3) : LifeMono s1 s3 :=
  fun x hx => h23 x (h12 x hx)

theorem runList_ok_ind
    (f : ConstructState → Nat → Except GlueErr ConstructState)
    (P : ConstructState → Prop)
    (hstep : ∀ st b st', P st → f st b = .ok st' →
      P st' ∧ st'.lifecycle b = .BeanInitialized ∧ LifeMono st st') :
    ∀ (l : List Nat) (st st' : ConstructState), P st → runList f st l = .ok st' →
      P st' ∧ (∀ b ∈ l, st'.lifecycle b = .BeanInitialized) ∧ LifeMono st st' := by
  intro l
  induction l with
  | nil =>
    intro st st' hP hrun
    rw [runList] at hrun
    obtain rfl : st = st' := by injection hrun
    exact ⟨hP, by intro b hb; simp at hb, fun x hx => hx⟩
  | cons b rest ih =>
    intro st st' hP hrun
    rw [runList] at hrun
    cases hf : f st b with
    | error e => rw [hf] at hrun; exact absurd hrun (by simp)
    | ok st1 =>
      rw [hf] at hrun
      obtain ⟨hP1, hbinit, hmono1⟩ := hstep st b st1 hP hf
      obtain ⟨hP', hall, hmono2⟩ := ih st1 st' hP1 hrun
      refine ⟨hP', ?_, hmono1.trans hmono2⟩
      intro x hx
      rcases List.mem_cons.mp hx with h | h
      · exact hmono2 x (h ▸ hbinit)
      · exact hall x h

theorem constructBean_ok (g : CtxGraph) :
    ∀ (fuel : Nat) (st : ConstructState) (b : Nat) (stack : List Nat) (st' : ConstructState),
      CInv g st → StackOK st stack →
      constructBean g fuel st b stack = .ok st' →
      CInv g st' ∧ StackOK st' stack ∧ st'.lifecycle b = .BeanInitialized ∧ LifeMono st st' := by
  intro fuel
  induction fuel with
  | zero =>
    intro st b stack st' _ _ h
    rw [constructBean_zero] at h
    exact absurd h (by simp)
  | succ fuel ih =>
    intro st b stack st' hinv hstk hok
    rw [constructBean_succ] at hok
    by_cases hInit : st.lifecycle b = .BeanInitialized
    · rw [if_pos hInit] at hok
      obtain rfl : st = st' := by injection hok
      exact ⟨hinv, hstk, hInit, fun x hx => hx⟩
    · rw [if_neg hInit] at hok
      by_cases hcyc : st.lifecycle b = .BeanConstructing ∧ b ∈ stack
      · rw [if_pos hcyc] at hok
        exact absurd hok (by simp)
      · rw [if_neg hcyc] at hok
        have hbstack : b ∉ stack := fun hmem => hcyc ⟨hstk b hmem, hmem⟩
        have hinv1 : CInv g (st.setLife b .BeanConstructing) := by
          refine ⟨?_, ?_, ?_⟩
          · intro x
            rw [lifecycle_setLife]
            by_cases hx : x = b
            · rw [if_pos hx]
              subst hx
              constructor
              · intro h; exact absurd h (by simp)
              · intro h; exact absurd ((hinv.initMem x).mpr h) hInit
            · rw [if_neg hx]
              exact hinv.initMem x
          · exact hinv.topo
          · exact hinv.nodup
        have hstk1 : StackOK (st.setLife b .BeanConstructing) (stack ++ [b]) := by
          intro x hx
          rw [lifecycle_setLife]
          rcases List.mem_append.mp hx with h | h
          · by_cases hxb : x = b
            · rw [if_pos hxb]
            · rw [if_neg hxb]; exact hstk x h
          · rw [if_pos (List.mem_singleton.mp h)]
        cases hrl : runList (fun s d => constructBean g fuel s d (stack ++ [b]))
            (st.setLife b .BeanConstructing) (g.dependencies b) with
        | error e =>
          rw [hrl] at hok
          have hok' : (Except.error e : Except GlueErr ConstructState) = .ok st' := hok
          exact absurd hok' (by simp)
        | ok st2 =>
          rw [hrl] at hok
          have hok' : (if g.postConstructOk b = true then
              Except.ok (finishBean g st2 b)
            else Except.error (GlueErr.postConstructFailed b)) = Except.ok st' := hok
          by_cases hpc : g.postConstructOk b = true
          · rw [if_pos hpc] at hok'
            have hst' : st' = finishBean g st2 b := by
              injection hok' with h
              exact h.symm
            subst hst'
            obtain ⟨⟨hinv2, hstk2⟩, hdeps, hmono12⟩ :=
              runList_ok_ind _ (fun s => CInv g s ∧ StackOK s (stack ++ [b]))
                (fun s d s2 hP hf => by
                  obtain ⟨h1, h2, h3, h4⟩ := ih s d (stack ++ [b]) s2 hP.1 hP.2 hf
                  exact ⟨⟨h1, h2⟩, h3, h4⟩)
                (g.dependencies b) _ st2 ⟨hinv1, hstk1⟩ hrl
            have hb2 : st2.lifecycle b = .BeanConstructing :=
              hstk2 b (List.mem_append_right stack (List.mem_singleton_self b))
            have hbnotin2 : b ∉ st2.initOrder := by
              intro hmem
              have := (hinv2.initMem b).mpr hmem
              rw [this] at hb2
              exact absurd hb2 (by simp)
            refine ⟨⟨?_, ?_, ?_⟩, ?_, ?_, ?_⟩
            · intro x
              rw [lifecycle_finishBean, initOrder_finishBean]
              by_cases hx : x = b
              · rw [if_pos hx]
                subst hx
                simp
              · rw [if_neg hx]
                rw [List.mem_append]
                simp only [List.mem_singleton, hx, or_false]
                exact hinv2.initMem x
            · intro x hx d hd
              rw [initOrder_finishBean] at hx ⊢
              rcases List.mem_append.mp hx with h | h
              · exact prior_append_right [b] (hinv2.topo x h d hd)
              · have hxb : x = b := List.mem_singleton.mp h
                subst hxb
                have hdinit : st2.lifecycle d = .BeanInitialized := hdeps d hd
                exact prior_append_new ((hinv2.initMem d).mp hdinit)
            · rw [initOrder_finishBean]
              exact List.Nodup.append hinv2.nodup (List.nodup_singleton b)
                (fun x hx1 hx2 => by
                  rw [List.mem_singleton] at hx2
                  subst hx2
                  exact hbnotin2 hx1)
            · intro x hx
              rw [lifecycle_finishBean]
              have hxb : x ≠ b := fun h => hbstack (h ▸ hx)
              rw [if_neg hxb]
              exact hstk2 x (List.mem_append_left _ hx)
            · rw [lifecycle_finishBean, if_pos rfl]
            · have hm1 : LifeMono st (st.setLife b .BeanConstructing) := by
                intro x hx
                rw [lifecycle_setLife]
                by_cases hxb : x = b
                · exact absurd (hxb ▸ hx) hInit
                · rw [if_neg hxb]; exact hx
              have hm3 : LifeMono st2 (finishBean g st2 b) := by
                intro x hx
                rw [lifecycle_finishBean]
                by_cases hxb : x = b
                · rw [if_pos hxb]
                · rw [if_neg hxb]; exact hx
              exact (hm1.trans hmono12).trans hm3
          · rw [if_neg hpc] at hok'
            exact absurd hok' (by simp)

theorem initial_CInv (g : CtxGraph) : CInv g initialState := by
  refine ⟨?_, ?_, ?_⟩
  · intro x
    constructor
    · intro h
      exact absurd h (by simp [initialState, ConstructState.lifecycle, List.lookup])
    · intro h
      exact absurd h (by simp [initialState])
  · intro b hb
    exact absurd hb (by simp [initialState])
  · simp [initialState]

theorem runConstruct_ok (g : CtxGraph) (fuel : Nat) (st' : ConstructState)
    (h : runConstruct g fuel = .ok st') :
    CInv g st' ∧ ∀ b ∈ g.beans, st'.lifecycle b = .BeanInitialized := by
  obtain ⟨hP, hall, _⟩ := runList_ok_ind
    (fun st b => constructBean g fuel st b []) (fun s => CInv g s)
    (fun st b st2 hP hf => by
      obtain ⟨h1, _, h3, h4⟩ := constructBean_ok g fuel st b [] st2 hP
        (by intro x hx; simp at hx) hf
      exact ⟨h1, h3, h4⟩)
    g.beans initialState st' (initial_CInv g) h
  exact ⟨hP, hall⟩

/-- C1: whenever the construction pass of a context completes
successfully, the completion order of the beans (the order in which each
bean's `PostConstruct` finished and it became `BeanInitialized`) lists
every scanned bean exactly once and is a topological order of the recorded
hard dependency edges: every hard dependency of a bean completes strictly
before the bean itself. -/
theorem C1_construction_topological_order (g : CtxGraph) (fuel : Nat) (st' : ConstructState)
    (h : runConstruct g fuel = .ok st') :
    st'.initOrder.Nodup ∧
    (∀ b ∈ g.beans, b ∈ st'.initOrder) ∧
    (∀ b ∈ st'.initOrder, ∀ d ∈ g.dependencies b, prior st'.initOrder d b) := by
  obtain ⟨hinv, hall⟩ := runConstruct_ok g fuel st' h
  exact ⟨hinv.nodup, fun b hb => (hinv.initMem b).mp (hall b hb), hinv.topo⟩

/-- Witness for C1 at the two-bean graph with the edge from bean 1 to
bean 0, constructed with fuel 3. -/
theorem C1_construction_topological_order_witness :
    ({ life := [(1, .BeanInitialized), (1, .BeanConstructing),
                (0, .BeanInitialized), (0, .BeanConstructing)]
       initOrder := [0, 1], disposables := [] } : ConstructState).initOrder.Nodup ∧
    (∀ b ∈ exampleGraph.beans, b ∈
      ({ life := [(1, .BeanInitialized), (1, .BeanConstructing),
                  (0, .BeanInitialized), (0, .BeanConstructing)]
         initOrder := [0, 1], disposables := [] } : ConstructState).initOrder) ∧
    (∀ b ∈ ({ life := [(1, .BeanInitialized), (1, .BeanConstructing),
                       (0, .BeanInitialized), (0, .BeanConstructing)]
              initOrder := [0, 1], disposables := [] } : ConstructState).initOrder,
      ∀ d ∈ exampleGraph.dependencies b,
        prior ({ life := [(1, .BeanInitialized), (1, .BeanConstructing),
                          (0, .BeanInitialized), (0, .BeanConstructing)]
                 initOrder := [0, 1], disposables := [] } : ConstructState).initOrder d b) :=
  C1_construction_topological_order exampleGraph 3
    { life := [(1, .BeanInitialized), (1, .BeanConstructing),
               (0, .BeanInitialized), (0, .BeanConstructing)]
      initOrder := [0, 1], disposables := [] }
    (by decide)

theorem inject_hardField (x t : Nat) (hxt : x ≠ t) :
    inject (plainBean x) hardDef [⟨1, [plainBean t]⟩] =
      .ok { value := .single t, deps := [t], factoryDeps := [] } := by
  have hfc : finalCandidates hardDef [⟨1, [plainBean t]⟩] = [plainBean t] := by
    rfl
  rw [inject]
  rw [hfc]
  have hne : ((plainBean t).id != (plainBean x).id) = true := by
    simp [plainBean]
    omega
  simp [hardDef, plainBean] at hne ⊢
  omega

theorem injectFields_hardField (x t : Nat) (hxt : x ≠ t) :
    injectFields (plainBean x) [hardField t] [] [] =
      .ok ([("Dep", .single t)], [t]) := by
  rw [injectFields, hardField, inject_hardField x t hxt]
  rfl

theorem injectPhase_ringWired (first : Nat) :
    ∀ (c : List Nat) (vals : List (Nat × List (String × FieldValue)))
      (deps : List (Nat × List Nat)),
      ringDistinct c first = true →
      ∃ vals', injectPhase (ringWired c first) vals deps =
        .ok (vals', deps ++ ringDepsMap c first) := by
  intro c
  induction c with
  | nil =>
    intro vals deps _
    exact ⟨vals, by simp [ringWired, ringDepsMap, injectPhase]⟩
  | cons x rest ih =>
    intro vals deps hdist
    match rest with
    | [] =>
      have hxf : x ≠ first := by
        simpa [ringDistinct] using hdist
      refine ⟨vals ++ [(x, [("Dep", .single first)])], ?_⟩
      rw [ringWired, injectPhase]
      rw [injectFields_hardField x first hxf]
      show injectPhase [] (vals ++ [(x, [("Dep", FieldValue.single first)])])
          (deps ++ [(x, [first])]) =
        Except.ok (vals ++ [(x, [("Dep", FieldValue.single first)])],
          deps ++ ringDepsMap [x] first)
      rw [injectPhase, ringDepsMap]
    | y :: rest' =>
      rw [ringDistinct, Bool.and_eq_true] at hdist
      obtain ⟨hxy, hdist'⟩ := hdist
      have hxy' : x ≠ y := by simpa using hxy
      obtain ⟨vals', hrec⟩ := ih (vals ++ [(x, [("Dep", .single y)])]) (deps ++ [(x, [y])]) hdist'
      refine ⟨vals', ?_⟩
      rw [ringWired, injectPhase]
      rw [injectFields_hardField x y hxy']
      show injectPhase (ringWired (y :: rest') first)
          (vals ++ [(x, [("Dep", FieldValue.single y)])]) (deps ++ [(x, [y])]) =
        Except.ok (vals', deps ++ ringDepsMap (x :: y :: rest') first)
      rw [hrec, ringDepsMap]
      simp

theorem ringWired_ids (first : Nat) :
    ∀ (c : List Nat), (ringWired c first).map (fun wb => wb.rbean.id) = c := by
  intro c
  induction c with
  | nil => rfl
  | cons x rest ih =>
    match rest with
    | [] => rfl
    | y :: rest' =>
      rw [ringWired]
      simp only [List.map_cons, plainBean]
      rw [ih]

theorem lookup_ringDepsMap (first : Nat) :
    ∀ (c : List Nat) (x : Nat), c.Nodup → x ∈ c →
      (ringDepsMap c first).lookup x = some [ringNext c first x] := by
  intro c
  induction c with
  | nil => intro x _ hx; simp at hx
  | cons z rest ih =>
    intro x hnd hx
    match rest with
    | [] =>
      have hxz : x = z := by simpa using hx
      subst hxz
      simp [ringDepsMap, ringNext, List.lookup]
    | y :: rest' =>
      by_cases hxz : x = z
      · subst hxz
        rw [ringDepsMap]
        rw [ringNext, if_pos rfl]
        simp [List.lookup]
      · rw [ringDepsMap]
        rw [ringNext, if_neg (fun h => hxz h.symm)]
        have hxmem : x ∈ y :: rest' := by
          rcases List.mem_cons.mp hx with h | h
          · exact absurd h hxz
          · exact h
        have : (x == z) = false := by simpa using hxz
        rw [List.lookup, this]
        exact ih x hnd.of_cons hxmem

theorem ringDistinct_of_nodup_aux :
    ∀ (l : List Nat) (first : Nat), l.Nodup →
      (∀ z, l.getLast? = some z → z ≠ first) → ringDistinct l first = true := by
  intro l
  induction l with
  | nil => intro first _ _; rfl
  | cons x rest ih =>
    intro first hnd hlast
    match rest with
    | [] =>
      have : x ≠ first := hlast x rfl
      simpa [ringDistinct] using this
    | y :: rest' =>
      rw [ringDistinct, Bool.and_eq_true]
      constructor
      · have : x ∉ y :: rest' := (List.nodup_cons.mp hnd).1
        have hxy : x ≠ y := fun h => this (h ▸ List.mem_cons_self y rest')
        simpa using hxy
      · apply ih first hnd.of_cons
        intro z hz
        apply hlast z
        rw [List.getLast?_cons_cons]
        exact hz

theorem ringDistinct_of_nodup (a : Nat) (rest : List Nat)
    (hnd : (a :: rest).Nodup) (hne : rest ≠ []) :
    ringDistinct (a :: rest) a = true := by
  apply ringDistinct_of_nodup_aux _ _ hnd
  intro z hz
  match rest, hne with
  | r :: rest', _ =>
    rw [List.getLast?_cons_cons] at hz
    obtain ⟨hne', heq⟩ := List.mem_getLast?_eq_getLast (by rw [hz]; rfl)
    have hzmem : z ∈ r :: rest' := heq ▸ List.getLast_mem hne'
    have : a ∉ r :: rest' := (List.nodup_cons.mp hnd).1
    exact fun h => this (h ▸ hzmem)

theorem ringNext_decomp (a : Nat) :
    ∀ (pre : List Nat) (s y : Nat) (suf : List Nat), (pre ++ s :: y :: suf).Nodup →
      ringNext (pre ++ s :: y :: suf) a s = y := by
  intro pre
  induction pre with
  | nil =>
    intro s y suf _
    rw [List.nil_append, ringNext, if_pos rfl]
  | cons p pre' ih =>
    intro s y suf hnd
    have hnd' : (p :: (pre' ++ s :: y :: suf)).Nodup := by
      rw [List.cons_append] at hnd
      exact hnd
    have hmem : s ∈ pre' ++ s :: y :: suf :=
      List.mem_append_right pre' (List.mem_cons_self s (y :: suf))
    have hps : p ≠ s := fun h => (List.nodup_cons.mp hnd').1 (h ▸ hmem)
    match hsplit : pre' ++ s :: y :: suf with
    | [] => exact absurd (hsplit ▸ hmem) (by simp)
    | q :: tail =>
      have heq : (p :: pre') ++ s :: y :: suf = p :: q :: tail := by
        rw [List.cons_append, hsplit]
      rw [heq, ringNext, if_neg hps, ← hsplit]
      exact ih s y suf hnd'.of_cons

theorem ringNext_last (a : Nat) :
    ∀ (pre : List Nat) (s : Nat), (pre ++ [s]).Nodup →
      ringNext (pre ++ [s]) a s = a := by
  intro pre
  induction pre with
  | nil => intro s _; rfl
  | cons p pre' ih =>
    intro s hnd
    have hnd' : (p :: (pre' ++ [s])).Nodup := by
      rw [List.cons_append] at hnd
      exact hnd
    have hmem : s ∈ pre' ++ [s] := List.mem_append_right pre' (List.mem_singleton_self s)
    have hps : p ≠ s := fun h => (List.nodup_cons.mp hnd').1 (h ▸ hmem)
    match hsplit : pre' ++ [s] with
    | [] => exact absurd (hsplit ▸ hmem) (by simp)
    | q :: tail =>
      have heq : (p :: pre') ++ [s] = p :: q :: tail := by
        rw [List.cons_append, hsplit]
      match tail with
      | [] =>
        rw [heq, ringNext, if_neg hps, ← hsplit]
        exact ih s hnd'.of_cons
      | t1 :: tail' =>
        rw [heq, ringNext, if_neg hps, ← hsplit]
        exact ih s hnd'.of_cons

theorem cyclePath_head (a : Nat) (rest : List Nat) :
    cyclePath (a :: rest) a = (a :: rest) ++ [a] := by
  rw [cyclePath, List.dropWhile_cons]
  simp

theorem ring_dfs (g : CtxGraph) (c : List Nat) (a : Nat)
    (hdep : ∀ x ∈ c, g.dependencies x = [ringNext c a x])
    (hhead : c.head? = some a) (hnd : c.Nodup) :
    ∀ (suf' : List Nat) (s : Nat) (pre : List Nat) (fuel : Nat) (st : ConstructState),
      pre ++ s :: suf' = c → suf'.length + 2 ≤ fuel →
      (∀ x, st.lifecycle x = if x ∈ pre then .BeanConstructing else .BeanCreated) →
      constructBean g fuel st s pre = .error (.cycleDetected (c ++ [a])) := by
  intro suf'
  induction suf' with
  | nil =>
    intro s pre fuel st hsplit hfuel hlife
    obtain ⟨fuel1, rfl⟩ : ∃ f, fuel = f + 1 := ⟨fuel - 1, by omega⟩
    have hspre : s ∉ pre := by
      intro hmem
      have := hsplit ▸ hnd
      exact (List.disjoint_of_nodup_append this) hmem (List.mem_singleton_self s)
    have hlifes : st.lifecycle s = .BeanCreated := by rw [hlife s, if_neg hspre]
    rw [constructBean_succ]
    rw [if_neg (by rw [hlifes]; simp), if_neg (by rw [hlifes]; simp)]
    have hdeps : g.dependencies s = [a] := by
      rw [hdep s (hsplit ▸ List.mem_append_right pre (List.mem_cons_self s [])), ← hsplit,
        ringNext_last a pre s (hsplit ▸ hnd)]
    have hsc : pre ++ [s] = c := hsplit
    obtain ⟨fuel2, rfl⟩ : ∃ f, fuel1 = f + 1 := ⟨fuel1 - 1, by omega⟩
    obtain ⟨ctail, hceq⟩ : ∃ t, c = a :: t := by
      match c, hhead with
      | x :: t, hh =>
        have hh' : some x = some a := hh
        injection hh' with h1
        exact ⟨t, by rw [h1]⟩
    have hamem : a ∈ pre ++ [s] := by
      rw [hsc, hceq]
      exact List.mem_cons_self a ctail
    have hinner : constructBean g (fuel2 + 1) (st.setLife s .BeanConstructing) a (pre ++ [s]) =
        .error (.cycleDetected (c ++ [a])) := by
      rw [constructBean_succ]
      have hlifea : (st.setLife s .BeanConstructing).lifecycle a = .BeanConstructing := by
        rw [lifecycle_setLife]
        by_cases has : a = s
        · rw [if_pos has]
        · rw [if_neg has]
          rw [hlife a]
          have : a ∈ pre := by
            rcases List.mem_append.mp hamem with h | h
            · exact h
            · exact absurd (List.mem_singleton.mp h) has
          rw [if_pos this]
      rw [if_neg (by rw [hlifea]; simp), if_pos ⟨hlifea, hamem⟩]
      have hpath : cyclePath (pre ++ [s]) a = c ++ [a] := by
        rw [hsc, hceq]
        exact cyclePath_head a ctail
      rw [hpath]
    rw [hdeps]
    have hrl : runList (fun s2 d => constructBean g (fuel2 + 1) s2 d (pre ++ [s]))
        (st.setLife s .BeanConstructing) [a] = .error (.cycleDetected (c ++ [a])) := by
      rw [runList, hinner]
    rw [hrl]
  | cons y suf'' ih =>
    intro s pre fuel st hsplit hfuel hlife
    obtain ⟨fuel1, rfl⟩ : ∃ f, fuel = f + 1 := ⟨fuel - 1, by omega⟩
    have hspre : s ∉ pre := by
      intro hmem
      have := hsplit ▸ hnd
      exact (List.disjoint_of_nodup_append this) hmem (List.mem_cons_self s (y :: suf''))
    have hlifes : st.lifecycle s = .BeanCreated := by rw [hlife s, if_neg hspre]
    rw [constructBean_succ]
    rw [if_neg (by rw [hlifes]; simp), if_neg (by rw [hlifes]; simp)]
    have hdeps : g.dependencies s = [y] := by
      rw [hdep s (hsplit ▸ List.mem_append_right pre (List.mem_cons_self s (y :: suf''))),
        ← hsplit, ringNext_decomp a pre s y suf'' (hsplit ▸ hnd)]
    have hlife1 : ∀ x, (st.setLife s .BeanConstructing).lifecycle x =
        if x ∈ pre ++ [s] then .BeanConstructing else .BeanCreated := by
      intro x
      rw [lifecycle_setLife]
      by_cases hxs : x = s
      · rw [if_pos hxs,
          if_pos (List.mem_append_right pre (hxs ▸ List.mem_singleton_self s))]
      · rw [if_neg hxs, hlife x]
        by_cases hxp : x ∈ pre
        · rw [if_pos hxp, if_pos (List.mem_append_left [s] hxp)]
        · rw [if_neg hxp, if_neg]
          intro hc
          rcases List.mem_append.mp hc with h | h
          · exact hxp h
          · exact hxs (List.mem_singleton.mp h)
    have hinner : constructBean g fuel1 (st.setLife s .BeanConstructing) y (pre ++ [s]) =
        .error (.cycleDetected (c ++ [a])) := by
      apply ih y (pre ++ [s]) fuel1 (st.setLife s .BeanConstructing) ?_ (by
        simp only [List.length_cons] at hfuel
        omega) hlife1
      rw [List.append_assoc, List.singleton_append]
      exact hsplit
    rw [hdeps]
    have hrl : runList (fun s2 d => constructBean g fuel1 s2 d (pre ++ [s]))
        (st.setLife s .BeanConstructing) [y] = .error (.cycleDetected (c ++ [a])) := by
      rw [runList, hinner]
    rw [hrl]

theorem contextCreate_error_of (fuel : Nat) (wbs : List WiredBean)
    (vals : List (Nat × List (String × FieldValue))) (depsMap : List (Nat × List Nat))
    (e : GlueErr) (h : injectPhase wbs [] [] = .ok (vals, depsMap))
    (h2 : runConstruct (buildGraph wbs depsMap) fuel = .error e) :
    contextCreate fuel wbs = .error e := by
  have hstep : contextCreate fuel wbs =
      (match runConstruct (buildGraph wbs depsMap) fuel with
        | .error e2 => .error e2
        | .ok st => .ok { fieldValues := vals, final := st }) := by
    rw [contextCreate, h]
  rw [hstep, h2]

/-- C2 (amended): two or more distinct beans wired in a hard mutual cycle
through non-lazy inject fields make context creation fail with a cycle
error whose path names every bean on the cycle in dependency order,
starting and closing with the entry bean; a bean declaring a hard
self-referential cycle instead records no dependency edge and context
creation succeeds (counterexample theorem, matching the repository test
`TestSelfDepCycle`). -/
theorem C2_mutual_cycle_fails (a : Nat) (rest : List Nat) (fuel : Nat)
    (hnd : (a :: rest).Nodup) (hne : rest ≠ []) (hfuel : (a :: rest).length + 1 ≤ fuel) :
    contextCreate fuel (ringWired (a :: rest) a) =
      .error (.cycleDetected ((a :: rest) ++ [a])) := by
  have hdist := ringDistinct_of_nodup a rest hnd hne
  obtain ⟨vals, hphase⟩ := injectPhase_ringWired a (a :: rest) [] [] hdist
  rw [List.nil_append] at hphase
  apply contextCreate_error_of fuel _ vals (ringDepsMap (a :: rest) a) _ hphase
  have hbeans : (buildGraph (ringWired (a :: rest) a) (ringDepsMap (a :: rest) a)).beans
      = a :: rest := by
    rw [buildGraph]
    exact ringWired_ids a (a :: rest)
  have hdep : ∀ x ∈ a :: rest,
      (buildGraph (ringWired (a :: rest) a) (ringDepsMap (a :: rest) a)).dependencies x
        = [ringNext (a :: rest) a x] := by
    intro x hx
    show ((ringDepsMap (a :: rest) a).lookup x).getD [] = _
    rw [lookup_ringDepsMap a (a :: rest) x hnd hx]
    rfl
  have hdfs := ring_dfs (buildGraph (ringWired (a :: rest) a) (ringDepsMap (a :: rest) a))
    (a :: rest) a hdep rfl hnd rest a [] fuel initialState rfl
    (by simp only [List.length_cons] at hfuel; omega)
    (by
      intro x
      rw [if_neg (by simp)]
      rfl)
  rw [runConstruct, hbeans, runList, hdfs]

/-- Counterexample for C2 as stated: a bean declaring a hard (non-lazy)
self-referential inject field does not fail context creation; the
injection populates the field with the bean itself, records no dependency
edge, and construction completes, exactly as the repository test
`TestSelfDepCycle` requires. -/
theorem C2_self_cycle_counterexample :
    contextCreate 5 selfCycleBeans =
      .ok { fieldValues := [(0, [("Dep", .single 0)])]
            final := { life := [(0, .BeanInitialized), (0, .BeanConstructing)]
                       initOrder := [0], disposables := [] } } := by
  decide

/-- Witness for C2 at the concrete two-bean mutual cycle. -/
theorem C2_mutual_cycle_fails_witness :
    contextCreate 6 (ringWired [0, 1] 0) = .error (.cycleDetected [0, 1, 0]) :=
  C2_mutual_cycle_fails 0 [1] 6 (by decide) (by decide) (by decide)

theorem injectTableGo_lazy (self : RBean) (d : InjectDef) (hlazy : d.lazy = true) :
    ∀ (list : List RBean) (visited : List String) (entries : List (String × Nat))
      (deps fdeps : List Nat) (r : InjectResult),
      injectTableGo self d list visited entries deps fdeps = .ok r → r.deps = deps := by
  intro list
  induction list with
  | nil =>
    intro visited entries deps fdeps r hok
    rw [injectTableGo] at hok
    injection hok with h
    rw [← h]
  | cons impl rest ih =>
    intro visited entries deps fdeps r hok
    rw [injectTableGo] at hok
    by_cases hfac : impl.isFactory = true
    · rw [if_pos hfac] at hok
      exact ih _ _ _ _ _ hok
    · rw [if_neg hfac] at hok
      by_cases hvis : impl.name ∈ visited
      · rw [if_pos hvis] at hok
        exact absurd hok (by simp)
      · rw [if_neg hvis] at hok
        have hcond : (!d.lazy && impl.id != self.id) = false := by
          rw [hlazy]
          simp
        rw [hcond] at hok
        have := ih _ _ _ _ _ hok
        rw [this]
        simp

/-- C3: a lazy inject edge is never recorded as a hard construction-order
dependency (every successful injection of a lazy field records no
dependency edges), and the three-bean ring whose edge from bean 2 back to
bean 0 is lazy constructs successfully with the lazy-declared field still
populated with bean 0. -/
theorem C3_lazy_edge_not_hard (self : RBean) (d : InjectDef) (deep : List BeanList)
    (r : InjectResult) (hlazy : d.lazy = true) (hok : inject self d deep = .ok r) :
    r.deps = [] ∧
    contextCreate 10 lazyRingBeans =
      .ok { fieldValues := [(0, [("Dep", .single 1)]), (1, [("Dep", .single 2)]),
                            (2, [("Dep", .single 0)])]
            final := { life := [(0, .BeanInitialized), (1, .BeanInitialized),
                                (2, .BeanInitialized), (2, .BeanConstructing),
                                (1, .BeanConstructing), (0, .BeanConstructing)]
                       initOrder := [2, 1, 0], disposables := [] } } := by
  constructor
  · rw [inject] at hok
    by_cases hcs : d.canSet = true
    · rw [hcs] at hok
      simp only [Bool.not_true, Bool.false_eq_true, if_false] at hok
      cases hfc : finalCandidates d deep with
      | nil =>
        rw [hfc] at hok
        by_cases hopt : d.optional = true
        · rw [hopt] at hok
          simp only [Bool.not_true, Bool.false_eq_true, if_false] at hok
          injection hok with h
          rw [← h]
        · have : d.optional = false := by
            revert hopt; cases d.optional <;> simp
          rw [this] at hok
          exact absurd hok (by simp)
      | cons impl rest =>
        rw [hfc] at hok
        by_cases hsl : d.slice = true
        · rw [hsl] at hok
          simp only [if_true] at hok
          injection hok with h
          rw [← h]
          show ((impl :: rest).filter
            (fun b => !b.isFactory && !d.lazy && b.id != self.id)).map RBean.id = []
          rw [hlazy]
          simp
        · have hsl' : d.slice = false := by
            revert hsl; cases d.slice <;> simp
          rw [hsl'] at hok
          simp only [Bool.false_eq_true, if_false] at hok
          by_cases htb : d.table = true
          · rw [htb] at hok
            simp only [if_true] at hok
            exact injectTableGo_lazy self d hlazy _ _ _ _ _ _ hok
          · have htb' : d.table = false := by
              revert htb; cases d.table <;> simp
            rw [htb'] at hok
            simp only [Bool.false_eq_true, if_false] at hok
            by_cases hrest : 0 < rest.length
            · rw [if_pos hrest] at hok
              exact absurd hok (by simp)
            · rw [if_neg hrest] at hok
              by_cases hfac : impl.isFactory = true
              · rw [if_pos hfac, if_pos hlazy] at hok
                exact absurd hok (by simp)
              · rw [if_neg hfac] at hok
                injection hok with h
                rw [← h]
                show (if !d.lazy && impl.id != self.id then [impl.id] else []) = []
                rw [hlazy]
                simp
    · have : d.canSet = false := by
        revert hcs; cases d.canSet <;> simp
      rw [this] at hok
      exact absurd hok (by simp)
  · decide

/-- Witness for C3 at the concrete lazy edge of the ring. -/
theorem C3_lazy_edge_not_hard_witness :
    ({ value := .single 0, deps := [], factoryDeps := [] } : InjectResult).deps = [] ∧
    contextCreate 10 lazyRingBeans =
      .ok { fieldValues := [(0, [("Dep", .single 1)]), (1, [("Dep", .single 2)]),
                            (2, [("Dep", .single 0)])]
            final := { life := [(0, .BeanInitialized), (1, .BeanInitialized),
                                (2, .BeanInitialized), (2, .BeanConstructing),
                                (1, .BeanConstructing), (0, .BeanConstructing)]
                       initOrder := [2, 1, 0], disposables := [] } } :=
  C3_lazy_edge_not_hard (plainBean 2) (lazyField 0).fdef [⟨1, [plainBean 0]⟩]
    { value := .single 0, deps := [], factoryDeps := [] } rfl (by decide)

end Glue
